import Mathlib

/-!
Verification of the Dinic maximum-flow implementation (Dinic.cpp).

The development shallowly embeds the C++ code: the external NetworKit graph
collaborator is modelled as an edge-list graph (`Graph`) and the mutable
residual graph as a record of a node count, an edge-existence predicate and a
weight function (`RGraph`), matching the observable interface used by the
algorithm (`weight` returns 0 on absent edges, `setWeight`, `addEdge`,
`hasEdge`, out-neighbor iteration in ascending node order).  Loops are embedded
with explicit fuel, returning `none` on fuel exhaustion.  Edge weights are
exact rationals.
-/

namespace NetworKit

/-- Kernel-computable rational addition (the library `Rat.add` is sealed
against unfolding; this definition is proved equal to `+` below and is used
so that concrete executions reduce). -/
def qAdd (a b : ℚ) : ℚ := mkRat (a.num * b.den + b.num * a.den) (a.den * b.den)

/-- Kernel-computable rational negation. -/
def qNeg (a : ℚ) : ℚ := Rat.neg a

/-- Kernel-computable rational subtraction. -/
def qSub (a b : ℚ) : ℚ := qAdd a (qNeg b)

/-- Kernel-computable minimum, with the `std::min` convention
(`b < a ? b : a`). -/
def qMin (a b : ℚ) : ℚ := if b < a then b else a

/-- Kernel-computable absolute value. -/
def qAbs (a : ℚ) : ℚ := if a < 0 then qNeg a else a

abbrev Node := Nat

/-- The input graph collaborator: node count, directedness/weightedness flags,
and a list of directed weighted edges `(u, v, w)` meaning `u → v` with
capacity `w`. -/
structure Graph where
  numberOfNodes : Nat
  isDirected : Bool
  isWeighted : Bool
  edges : List (Node × Node × ℚ)

/-- In-neighbors of `u` with their edge weights, in edge-list order
(models `forInNeighborsOf`). -/
def Graph.inNeighborsOf (g : Graph) (u : Node) : List (Node × ℚ) :=
  g.edges.filterMap fun e => if e.2.1 = u then some (e.1, e.2.2) else none

/-- The residual graph: mutable weighted digraph interface used by the
algorithm.  `weight` is total and returns the null weight 0 for absent
edges, as the collaborator does. -/
structure RGraph where
  numberOfNodes : Nat
  hasEdge : Node → Node → Bool
  weight : Node → Node → ℚ

/-- First matching half-edge `(u, v, w)` in a half-edge list (models weight
lookup in the graph built by `GraphBuilder.completeGraph`). -/
def findEdge : List (Node × Node × ℚ) → Node → Node → Option ℚ
  | [], _, _ => none
  | e :: rest, u, v => if e.1 = u ∧ e.2.1 = v then some e.2.2 else findEdge rest u v

/-- Build an `RGraph` from a node count and a list of half-edges. -/
def RGraph.ofHalfEdges (n : Nat) (hes : List (Node × Node × ℚ)) : RGraph :=
  { numberOfNodes := n
    hasEdge := fun u v => (findEdge hes u v).isSome
    weight := fun u v => (findEdge hes u v).getD 0 }

/-- The half-edges inserted by `Dinic::initializeResidualGraph`: for every node
`u` and every original in-neighbor `v` of `u` with weight `w`, a forward
half-edge `v → u` with capacity `w` and a reverse half-edge `u → v` with
capacity 0. -/
def halfEdges (g : Graph) : List (Node × Node × ℚ) :=
  (List.range g.numberOfNodes).flatMap fun u =>
    (g.inNeighborsOf u).flatMap fun vw => [(vw.1, u, vw.2), (u, vw.1, (0 : ℚ))]

/-- `Dinic::initializeResidualGraph`. -/
def initializeResidualGraph (g : Graph) : RGraph :=
  RGraph.ofHalfEdges g.numberOfNodes (halfEdges g)

/-- `Graph::setWeight` on the residual graph. -/
def RGraph.setWeight (r : RGraph) (u v : Node) (w : ℚ) : RGraph :=
  { r with weight := fun a b => if a = u ∧ b = v then w else r.weight a b }

/-- `Graph::addEdge` on the residual graph. -/
def RGraph.addEdge (r : RGraph) (u v : Node) (w : ℚ) : RGraph :=
  { r with
    hasEdge := fun a b => if a = u ∧ b = v then true else r.hasEdge a b
    weight := fun a b => if a = u ∧ b = v then w else r.weight a b }

/-- `Graph::neighborRange`: out-neighbors over existing edges; adjacency
iteration order is modelled as ascending node ids. -/
def RGraph.neighborRange (r : RGraph) (u : Node) : List Node :=
  (List.range r.numberOfNodes).filter fun v => r.hasEdge u v

/-- State of the BFS in `Dinic::canReachTargetInLevelGraph`: the level array
(`-1` meaning unreached), the per-node predecessor lists and the FIFO queue. -/
structure BFSState where
  level : Node → Int
  parents : Node → List Node
  queue : List Node

/-- Processing of a single neighbor `c` of the dequeued node `p`
(body of the neighbor loop, Dinic.cpp lines 52-63). -/
def bfsVisitChild (r : RGraph) (p : Node) (st : BFSState) (c : Node) : BFSState :=
  if 0 < r.weight p c then
    if st.level c = -1 then
      { level := fun x => if x = c then st.level p + 1 else st.level x
        parents := fun x => if x = c then st.parents x ++ [p] else st.parents x
        queue := st.queue ++ [c] }
    else if st.level c = st.level p + 1 then
      { st with parents := fun x => if x = c then st.parents x ++ [p] else st.parents x }
    else st
  else st

/-- Processing of one dequeued node: visit all its out-neighbors. -/
def bfsProcess (r : RGraph) (p : Node) (st : BFSState) : BFSState :=
  (r.neighborRange p).foldl (bfsVisitChild r p) st

/-- The BFS queue loop, with fuel; `none` on fuel exhaustion. -/
def bfsLoop (r : RGraph) : Nat → BFSState → Option BFSState
  | 0, _ => none
  | fuel + 1, st =>
    match st.queue with
    | [] => some st
    | p :: rest => bfsLoop r fuel (bfsProcess r p { st with queue := rest })

/-- The initial BFS state: `level[source] = 0`, every other node unreached,
all predecessor lists cleared, queue holding exactly the source. -/
def bfsInit (source : Node) : BFSState :=
  { level := fun x => if x = source then 0 else -1
    parents := fun _ => []
    queue := [source] }

/-- `Dinic::canReachTargetInLevelGraph`: runs the BFS and returns whether the
target was reached, together with the final BFS state (whose `parents`
component is the side effect kept by the C++ member). -/
def canReachTargetInLevelGraph (r : RGraph) (source target : Node) (fuel : Nat) :
    Option (Bool × BFSState) :=
  (bfsLoop r fuel (bfsInit source)).map fun st => (decide (st.level target > -1), st)

/-- State of the walk loop in `Dinic::computeBlockingPath`: residual graph,
predecessor lists, accumulated flow, path buffer (index 0 = target) and the
current walk node `u`. -/
structure BlockState where
  rg : RGraph
  parents : Node → List Node
  totalFlow : ℚ
  path : List Node
  u : Node

/-- Consecutive `(child, parent)` pairs of the path buffer:
`(path[i], path[i+1])` for each `i`, in ascending `i` as in the C++ loops. -/
def pathPairs (path : List Node) : List (Node × Node) :=
  path.zip path.tail

/-- The bottleneck: minimum of `weight parent child` over the path pairs.  The
C++ folds `min` starting from the largest floating-point value; for the
nonempty pair lists arising in execution this equals the plain minimum. -/
def bottleNeck (r : RGraph) (path : List Node) : ℚ :=
  match pathPairs path with
  | [] => 0
  | q :: rest => rest.foldl (fun acc cp => qMin acc (r.weight cp.2 cp.1)) (r.weight q.2 q.1)

/-- Update for a single path pair (Dinic.cpp lines 98-110): subtract the
bottleneck from the forward edge, add it to the reverse edge (creating it if
absent), and pop the front predecessor of the child exactly when the updated
forward weight equals zero. -/
def saturatePair (b : ℚ) (st : RGraph × (Node → List Node)) (cp : Node × Node) :
    RGraph × (Node → List Node) :=
  let r := st.1
  let parents := st.2
  let child := cp.1
  let parent := cp.2
  let currentCapacity := r.weight parent child
  let r1 := r.setWeight parent child (qSub currentCapacity b)
  let r2 :=
    if r1.hasEdge child parent then r1.setWeight child parent (qAdd (r1.weight child parent) b)
    else r1.addEdge child parent b
  let parents' :=
    if r2.weight parent child = 0 ∧ parents child ≠ [] then
      fun x => if x = child then (parents x).tail else parents x
    else parents
  (r2, parents')

/-- Saturate the whole path: fold the pair update over the path pairs in
ascending order, as the C++ loop does. -/
def saturatePath (b : ℚ) (r : RGraph) (parents : Node → List Node) (path : List Node) :
    RGraph × (Node → List Node) :=
  (pathPairs path).foldl (saturatePair b) (r, parents)

/-- One-iteration-per-fuel embedding of the `while (true)` loop of
`Dinic::computeBlockingPath`.  The two ways of choosing `v` (advance via the
front predecessor, or retreat to the new path tail) continue into the same
saturation-or-step code, here inlined in both branches. -/
def blockLoop (source target : Node) :
    Nat → BlockState → Option (ℚ × RGraph × (Node → List Node))
  | 0, _ => none
  | fuel + 1, st =>
    match st.parents st.u with
    | v :: _ =>
      if v = source then
        let b := bottleNeck st.rg (st.path ++ [v])
        let rp := saturatePath b st.rg st.parents (st.path ++ [v])
        blockLoop source target fuel
          { rg := rp.1, parents := rp.2, totalFlow := qAdd st.totalFlow b,
            path := [target], u := v }
      else blockLoop source target fuel { st with path := st.path ++ [v], u := v }
    | [] =>
      match st.path.dropLast.getLast? with
      | none => some (st.totalFlow, st.rg, st.parents)
      | some v =>
        if v = source then
          let b := bottleNeck st.rg st.path.dropLast
          let rp := saturatePath b st.rg st.parents st.path.dropLast
          blockLoop source target fuel
            { rg := rp.1, parents := rp.2, totalFlow := qAdd st.totalFlow b,
              path := [target], u := v }
        else blockLoop source target fuel { st with path := st.path.dropLast, u := v }

/-- `Dinic::computeBlockingPath`: start the walk at the target with path
buffer `[target]` and zero accumulated flow. -/
def computeBlockingPath (r : RGraph) (parents : Node → List Node) (source target : Node)
    (fuel : Nat) : Option (ℚ × RGraph × (Node → List Node)) :=
  blockLoop source target fuel
    { rg := r, parents := parents, totalFlow := 0, path := [target], u := target }

/-- Modelled from the spec: the numeric tolerance comparison utility
(`Aux::NumericTools::equal`, consumed but not part of the given sources).  Per
the spec it is a tolerance-aware equality with a documented epsilon. -/
def NumericTools.equal (x y tol : ℚ) : Bool :=
  decide (qAbs (qSub x y) ≤ tol)

/-- Modelled from the spec: the documented tolerance epsilon of the numeric
comparison utility.  The spec fixes no value; any positive value exhibits the
behaviors proved below. -/
def acceptableError : ℚ := mkRat 1 1000000000

/-- The phase loop of `Dinic::run`, instrumented with a trace recording, for
every iteration whose BFS reached the target, the target's BFS level (the
source→target distance of that phase).  Returns accumulated flow, final
residual graph, final predecessor lists and the trace. -/
def runLoopT (source target : Node) (eps : ℚ) (fuel : Nat) :
    Nat → RGraph → ℚ → List Int → Option (ℚ × RGraph × (Node → List Node) × List Int)
  | 0, _, _, _ => none
  | pf + 1, r, mf, trace =>
    match canReachTargetInLevelGraph r source target fuel with
    | none => none
    | some (reached, st) =>
      if reached then
        match computeBlockingPath r st.parents source target fuel with
        | none => none
        | some (flow, r', p') =>
          if ¬ NumericTools.equal flow 0 eps then
            runLoopT source target eps fuel pf r' (qAdd mf flow) (trace ++ [st.level target])
          else some (mf, r', p', trace ++ [st.level target])
      else some (mf, r, st.parents, trace)

/-- `Dinic::run` on the raw inputs: rebuild the residual graph from the input
graph, reset the accumulator to zero, and run the phase loop. -/
def runCore (g : Graph) (source target : Node) (eps : ℚ) (fuel : Nat) :
    Option (ℚ × RGraph × (Node → List Node) × List Int) :=
  runLoopT source target eps fuel fuel (initializeResidualGraph g) 0 []

/-- The maximum-flow value computed by `run`, when the fuel suffices. -/
def dinicMaxFlow (g : Graph) (source target : Node) (eps : ℚ) (fuel : Nat) : Option ℚ :=
  (runCore g source target eps fuel).map fun res => res.1

/-- The per-phase source→target distances recorded by the instrumented run. -/
def dinicTrace (g : Graph) (source target : Node) (eps : ℚ) (fuel : Nat) : Option (List Int) :=
  (runCore g source target eps fuel).map fun res => res.2.2.2

/-- The empty residual graph (a default-constructed collaborator graph). -/
def RGraph.empty : RGraph :=
  { numberOfNodes := 0, hasEdge := fun _ _ => false, weight := fun _ _ => 0 }

/-- The algorithm object: the fields of the C++ class `Dinic` (`graph`,
`source`, `target`, `parents`, `residualGraph`, `maxFlow`) plus the `hasRun`
flag of the `Algorithm` base class. -/
structure Dinic where
  graph : Graph
  source : Node
  target : Node
  parents : Node → List Node
  residualGraph : RGraph
  maxFlow : ℚ
  hasRun : Bool

/-- The constructor `Dinic::Dinic`: validates directedness, weightedness and
distinctness of source and target, throwing a runtime error otherwise; on
success only the predecessor storage is prepared and no residual graph is
built. -/
def Dinic.create (g : Graph) (s t : Node) : Except String Dinic :=
  if g.isDirected = false then
    .error "Dinic algorithm requires directed graph!"
  else if g.isWeighted = false then
    .error "Dinic algorithm requires weighted graph!"
  else if s = t then
    .error "Dinic algorithm requires `source` and `target` node to be different!"
  else
    .ok { graph := g, source := s, target := t, parents := fun _ => [],
          residualGraph := RGraph.empty, maxFlow := 0, hasRun := false }

/-- `Dinic::run` as a state transformer on the algorithm object. -/
def Dinic.run (d : Dinic) (eps : ℚ) (fuel : Nat) : Option Dinic :=
  match runCore d.graph d.source d.target eps fuel with
  | none => none
  | some res =>
    some { d with residualGraph := res.2.1, parents := res.2.2.1,
                  maxFlow := res.1, hasRun := true }

/-- Modelled from the spec: `Dinic::getMaxFlow` calls `assureFinished` of the
`Algorithm` base class (not among the given sources), which raises the
"not run" error when `run` has not completed, and otherwise returns the
accumulated flow. -/
def Dinic.getMaxFlow (d : Dinic) : Except String ℚ :=
  if d.hasRun then .ok d.maxFlow else .error "Error, run must be called first."

/-- The full pipeline: construct, run, query. -/
def dinicSolve (g : Graph) (s t : Node) (eps : ℚ) (fuel : Nat) : Option (Except String ℚ) :=
  match Dinic.create g s t with
  | .error e => some (.error e)
  | .ok d => (d.run eps fuel).map Dinic.getMaxFlow

/-- One phase on a freshly built residual graph: the BFS of
`canReachTargetInLevelGraph` followed by `computeBlockingPath`, exactly as the
first iteration of the loop in `Dinic::run` executes them. -/
def phase1 (g : Graph) (s t : Node) (fuel : Nat) :
    Option (ℚ × RGraph × (Node → List Node)) :=
  match canReachTargetInLevelGraph (initializeResidualGraph g) s t fuel with
  | none => none
  | some (_, st) => computeBlockingPath (initializeResidualGraph g) st.parents s t fuel

/-- Observation: the flow returned by the first blocking-path call. -/
def phase1Flow (g : Graph) (s t : Node) (fuel : Nat) : Option ℚ :=
  (phase1 g s t fuel).map fun res => res.1

/-- Observation: a residual weight after the first blocking-path call. -/
def phase1Weight (g : Graph) (s t : Node) (fuel : Nat) (u v : Node) : Option ℚ :=
  (phase1 g s t fuel).map fun res => res.2.1.weight u v

/-- Observation: a predecessor list after the first blocking-path call. -/
def phase1Parents (g : Graph) (s t : Node) (fuel : Nat) (c : Node) : Option (List Node) :=
  (phase1 g s t fuel).map fun res => res.2.2 c

/-- Whether the level graph (as recorded by the predecessor lists) still
admits a walk from `c` back to the source along predecessor links of strictly
positive residual capacity, within the given depth. -/
def admitsWalk (r : RGraph) (parents : Node → List Node) (source : Node) :
    Nat → Node → Bool
  | 0, c => decide (c = source)
  | depth + 1, c =>
    decide (c = source) ||
      (parents c).any fun p => decide (0 < r.weight p c) && admitsWalk r parents source depth p

/-- Observation: whether, after the first blocking-path call returns, the
level graph still admits a target-to-source walk. -/
def phase1AdmitsWalk (g : Graph) (s t : Node) (fuel : Nat) : Option Bool :=
  (phase1 g s t fuel).map fun res => admitsWalk res.2.1 res.2.2 s g.numberOfNodes t

/-- Observation: the flow returned by `computeBlockingPath`. -/
def cbpFlow (r : RGraph) (parents : Node → List Node) (s t : Node) (fuel : Nat) : Option ℚ :=
  (computeBlockingPath r parents s t fuel).map fun res => res.1

/-- Observation: a residual weight after `computeBlockingPath`. -/
def cbpWeight (r : RGraph) (parents : Node → List Node) (s t : Node) (fuel : Nat)
    (u v : Node) : Option ℚ :=
  (computeBlockingPath r parents s t fuel).map fun res => res.2.1.weight u v

/-- Observation: a predecessor list after `computeBlockingPath`. -/
def cbpParents (r : RGraph) (parents : Node → List Node) (s t : Node) (fuel : Nat)
    (c : Node) : Option (List Node) :=
  (computeBlockingPath r parents s t fuel).map fun res => res.2.2 c

/-! ### Reference maximum-flow definition

Stated from the spec's words ("the maximum s-t flow value", "flow
conservation", "capacity feasibility"), independent of the algorithm: a
feasible flow assigns each original edge a value between 0 and its capacity
and conserves flow at every internal node; the maximum flow value is the
largest value of a feasible flow. -/

/-- Total flow into node `x` over the original edges. -/
def inflowAt (g : Graph) (f : Node → Node → ℚ) (x : Node) : ℚ :=
  ((g.edges.filter fun e => decide (e.2.1 = x)).map fun e => f e.1 e.2.1).sum

/-- Total flow out of node `x` over the original edges. -/
def outflowAt (g : Graph) (f : Node → Node → ℚ) (x : Node) : ℚ :=
  ((g.edges.filter fun e => decide (e.1 = x)).map fun e => f e.1 e.2.1).sum

/-- Capacity feasibility and conservation at internal nodes. -/
def IsFeasibleFlow (g : Graph) (s t : Node) (f : Node → Node → ℚ) : Prop :=
  (∀ e ∈ g.edges, 0 ≤ f e.1 e.2.1 ∧ f e.1 e.2.1 ≤ e.2.2) ∧
  (∀ v, v < g.numberOfNodes → v ≠ s → v ≠ t → inflowAt g f v = outflowAt g f v)

/-- The value of a flow: net outflow of the source. -/
def flowValue (g : Graph) (s : Node) (f : Node → Node → ℚ) : ℚ :=
  outflowAt g f s - inflowAt g f s

/-- `F` is the maximum s-t flow value of `g`: attained by some feasible flow
and an upper bound on all feasible flows. -/
def IsMaxFlowValue (g : Graph) (s t : Node) (F : ℚ) : Prop :=
  (∃ f, IsFeasibleFlow g s t f ∧ flowValue g s f = F) ∧
  ∀ f, IsFeasibleFlow g s t f → flowValue g s f ≤ F

/-! ### Concrete instances used by the claims -/

/-- Scenario A of the spec: the diamond graph, source 0 (= s), nodes 1 (= a),
2 (= b), target 3 (= t). -/
def diamondG : Graph :=
  ⟨4, true, true, [(0, 1, 3), (0, 2, 2), (1, 2, 1), (1, 3, 2), (2, 3, 3)]⟩

/-- A two-node graph whose single capacity is half the tolerance. -/
def tinyG : Graph := ⟨2, true, true, [(0, 1, mkRat 1 2000000000)]⟩

/-- A five-node graph on which the phase loop executes six phases. -/
def phasesG : Graph :=
  ⟨5, true, true,
    [(3, 1, 1), (0, 4, 1), (0, 1, 1), (0, 2, 2), (0, 3, 2), (3, 4, 1), (1, 4, 3),
     (2, 1, 1), (2, 4, 1)]⟩

/-- A three-node path graph whose second capacity exceeds the first by half
the tolerance. -/
def withinTolG : Graph := ⟨3, true, true, [(0, 1, 1), (1, 2, qAdd 1 (mkRat 1 2000000000))]⟩

deriving instance DecidableEq for Except

/-- Whether a list of distances is non-decreasing. -/
def nondecreasingB : List Int → Bool
  | a :: b :: rest => decide (a ≤ b) && nondecreasingB (b :: rest)
  | _ => true

/-- Whether a list of distances is strictly increasing. -/
def strictlyIncreasingB : List Int → Bool
  | a :: b :: rest => decide (a < b) && strictlyIncreasingB (b :: rest)
  | _ => true

/-- An undirected input (constructor must reject it). -/
def undirectedG : Graph := ⟨2, false, true, [(0, 1, 1)]⟩

/-- An unweighted input (constructor must reject it). -/
def unweightedG : Graph := ⟨2, true, false, [(0, 1, 1)]⟩

/-- A freshly constructed algorithm object for the diamond instance (the value
`Dinic.create diamondG 0 3` returns). -/
def dDiamond : Dinic :=
  { graph := diamondG, source := 0, target := 3, parents := fun _ => [],
    residualGraph := RGraph.empty, maxFlow := 0, hasRun := false }

/-- The walk the blocking-path extraction follows, as a Boolean check: from
the head node, each next element is the front of the current element's
predecessor list; every element before the last differs from the source; and
the last element is the source. -/
def frontChainB (parents : Node → List Node) (source : Node) : List Node → Bool
  | [] => false
  | [a] => decide (a = source)
  | a :: b :: rest =>
    decide (a ≠ source) && decide ((parents a).head? = some b) &&
      frontChainB parents source (b :: rest)

/-- `chain` is the front chain of the predecessor lists from `target` down to
`source`. -/
def IsFrontChain (parents : Node → List Node) (source target : Node)
    (chain : List Node) : Prop :=
  chain.head? = some target ∧ frontChainB parents source chain = true

/-- Absent edges carry the null weight (true of every graph the collaborator
hands out and preserved by the algorithm's updates). -/
def Coherent (r : RGraph) : Prop :=
  ∀ u v, r.hasEdge u v = false → r.weight u v = 0

/-- All residual capacities are nonnegative. -/
def Nonneg (r : RGraph) : Prop :=
  ∀ u v, 0 ≤ r.weight u v

/-- The residual graph of the diamond instance at the start of phase 1. -/
def rDia : RGraph := initializeResidualGraph diamondG

/-- The predecessor lists the phase-1 BFS of the diamond instance computes. -/
def pDia : Node → List Node :=
  fun c => if c = 1 then [0] else if c = 2 then [0] else if c = 3 then [1, 2] else []

/-! ## Theorems -/

theorem qAdd_eq (a b : ℚ) : qAdd a b = a + b := by
  rw [Rat.add_def']; rfl

theorem qNeg_eq (a : ℚ) : qNeg a = -a := rfl

theorem qSub_eq (a b : ℚ) : qSub a b = a - b := by
  rw [qSub, qNeg_eq, qAdd_eq, Rat.sub_eq_add_neg]

theorem qMin_eq (a b : ℚ) : qMin a b = min a b := by
  rw [qMin]
  rcases lt_or_ge b a with h | h
  · rw [if_pos h, min_eq_right h.le]
  · rw [if_neg (not_lt.mpr h), min_eq_left h]

theorem qAbs_eq (a : ℚ) : qAbs a = |a| := by
  rw [qAbs, qNeg_eq, abs]
  rcases lt_trichotomy a 0 with h | h | h
  · rw [if_pos h, max_eq_right (by linarith : a ≤ -a)]
  · subst h; simp
  · rw [if_neg (not_lt.mpr h.le), max_eq_left (by linarith : -a ≤ a)]

theorem saturateFold_parents_empty (b : ℚ) (s : Node) :
    ∀ (cps : List (Node × Node)) (rp : RGraph × (Node → List Node)),
      rp.2 s = [] → (cps.foldl (saturatePair b) rp).2 s = [] := by
  intro cps
  induction cps with
  | nil => intro rp h; exact h
  | cons cp rest ih =>
    intro rp h
    rw [List.foldl_cons]
    apply ih
    have key : ∀ (C : Prop) (inst : Decidable C),
        (if C then (fun x => if x = cp.1 then (rp.2 x).tail else rp.2 x) else rp.2) s = [] := by
      intro C inst
      split
      · by_cases hs : s = cp.1
        · subst hs; simp [h]
        · simp [hs, h]
      · exact h
    show (saturatePair b rp cp).2 s = []
    simp only [saturatePair]
    exact key _ _

theorem saturatePath_parents_empty (b : ℚ) (s : Node) (r : RGraph)
    (ps : Node → List Node) (path : List Node) (h : ps s = []) :
    (saturatePath b r ps path).2 s = [] :=
  saturateFold_parents_empty b s (pathPairs path) (r, ps) h

theorem blockLoop_finish (source target : Node) (rg : RGraph) (ps : Node → List Node)
    (f : ℚ) (hsrc : ps source = []) :
    ∀ (fuel : Nat) (res : ℚ × RGraph × (Node → List Node)),
      blockLoop source target fuel ⟨rg, ps, f, [target], source⟩ = some res →
      res = (f, rg, ps) := by
  intro fuel res h
  cases fuel with
  | zero => cases h
  | succ n =>
    rw [blockLoop] at h
    simp only [hsrc, List.dropLast_single, List.getLast?_nil] at h
    exact (Option.some_injective _ h).symm

theorem blockLoop_walk (source target : Node) (r : RGraph) (ps : Node → List Node)
    (hsrc : ps source = []) :
    ∀ (suf : List Node) (u : Node) (path : List Node) (f : ℚ) (fuel : Nat)
      (res : ℚ × RGraph × (Node → List Node)),
      frontChainB ps source (u :: suf) = true → suf ≠ [] →
      blockLoop source target fuel ⟨r, ps, f, path, u⟩ = some res →
      res = (qAdd f (bottleNeck r (path ++ suf)),
             saturatePath (bottleNeck r (path ++ suf)) r ps (path ++ suf)) := by
  intro suf
  induction suf with
  | nil => intro u path f fuel res hch hne; exact absurd rfl hne
  | cons v rest ih =>
    intro u path f fuel res hch hne hrun
    rw [frontChainB, Bool.and_eq_true, Bool.and_eq_true, decide_eq_true_iff,
      decide_eq_true_iff] at hch
    obtain ⟨⟨hu, hv⟩, hch'⟩ := hch
    obtain ⟨tl, htl⟩ := List.head?_eq_some_iff.mp hv
    cases fuel with
    | zero => cases hrun
    | succ n =>
      rw [blockLoop] at hrun
      simp only [htl] at hrun
      cases rest with
      | nil =>
        have hvs : v = source := by
          rw [frontChainB, decide_eq_true_iff] at hch'
          exact hch'
        subst hvs
        rw [if_pos rfl] at hrun
        have hps' : (saturatePath (bottleNeck r (path ++ [v])) r ps (path ++ [v])).2 v = [] :=
          saturatePath_parents_empty _ v r ps _ hsrc
        have hfin := blockLoop_finish v target _ _ _ hps' n res hrun
        rw [hfin]
      | cons w rest' =>
        have hvs : v ≠ source := by
          rw [frontChainB, Bool.and_eq_true, Bool.and_eq_true, decide_eq_true_iff] at hch'
          exact hch'.1.1
        rw [if_neg hvs] at hrun
        have := ih v (path ++ [v]) f n res hch' (by simp) hrun
        rw [this, List.append_assoc]
        rfl

theorem cbp_single_path (r : RGraph) (ps : Node → List Node) (source target : Node)
    (chain : List Node) (fuel : Nat) (res : ℚ × RGraph × (Node → List Node))
    (hst : source ≠ target) (hsrc : ps source = [])
    (hchain : IsFrontChain ps source target chain)
    (hrun : computeBlockingPath r ps source target fuel = some res) :
    res = (bottleNeck r chain, saturatePath (bottleNeck r chain) r ps chain) := by
  obtain ⟨hhead, hfcb⟩ := hchain
  obtain ⟨tail, htail⟩ := List.head?_eq_some_iff.mp hhead
  subst htail
  have htne : tail ≠ [] := by
    intro h
    subst h
    rw [frontChainB, decide_eq_true_iff] at hfcb
    exact hst hfcb.symm
  rw [computeBlockingPath] at hrun
  have hw := blockLoop_walk source target r ps hsrc tail target [target] 0 fuel res hfcb
    htne hrun
  rw [hw]
  simp [qAdd_eq]

theorem foldl_qMin_le_init (w : Node × Node → ℚ) :
    ∀ (l : List (Node × Node)) (a : ℚ), l.foldl (fun acc cp => qMin acc (w cp)) a ≤ a := by
  intro l
  induction l with
  | nil => intro a; exact le_rfl
  | cons cp rest ih =>
    intro a
    rw [List.foldl_cons]
    exact le_trans (ih _) (by rw [qMin_eq]; exact min_le_left _ _)

theorem foldl_qMin_le_mem (w : Node × Node → ℚ) :
    ∀ (l : List (Node × Node)) (a : ℚ) (cp : Node × Node), cp ∈ l →
      l.foldl (fun acc q => qMin acc (w q)) a ≤ w cp := by
  intro l
  induction l with
  | nil => intro a cp h; cases h
  | cons q rest ih =>
    intro a cp h
    rw [List.foldl_cons]
    rcases List.mem_cons.mp h with rfl | hm
    · exact le_trans (foldl_qMin_le_init w rest _) (by rw [qMin_eq]; exact min_le_right _ _)
    · exact ih _ cp hm

theorem foldl_qMin_nonneg (w : Node × Node → ℚ) :
    ∀ (l : List (Node × Node)) (a : ℚ), 0 ≤ a → (∀ cp ∈ l, 0 ≤ w cp) →
      0 ≤ l.foldl (fun acc q => qMin acc (w q)) a := by
  intro l
  induction l with
  | nil => intro a ha _; exact ha
  | cons q rest ih =>
    intro a ha hl
    rw [List.foldl_cons]
    apply ih
    · rw [qMin_eq]
      exact le_min ha (hl q (List.mem_cons_self q rest))
    · intro cp h
      exact hl cp (List.mem_cons_of_mem _ h)

theorem bottleNeck_nonneg (r : RGraph) (path : List Node) (hnn : Nonneg r) :
    0 ≤ bottleNeck r path := by
  cases hpp : pathPairs path with
  | nil => rw [bottleNeck, hpp]
  | cons q rest =>
    rw [bottleNeck, hpp]
    exact foldl_qMin_nonneg (fun cp => r.weight cp.2 cp.1) rest _ (hnn _ _) fun cp _ => hnn _ _

theorem bottleNeck_le (r : RGraph) (path : List Node) (cp : Node × Node)
    (h : cp ∈ pathPairs path) : bottleNeck r path ≤ r.weight cp.2 cp.1 := by
  cases hpp : pathPairs path with
  | nil => rw [hpp] at h; cases h
  | cons q rest =>
    rw [bottleNeck, hpp]
    rw [hpp] at h
    rcases List.mem_cons.mp h with rfl | hm
    · exact foldl_qMin_le_init (fun q => r.weight q.2 q.1) rest _
    · exact foldl_qMin_le_mem (fun q => r.weight q.2 q.1) rest _ cp hm

theorem pathPairs_mem {path : List Node} {cp : Node × Node} (h : cp ∈ pathPairs path) :
    cp.1 ∈ path ∧ cp.2 ∈ path := by
  obtain ⟨c, p⟩ := cp
  rw [pathPairs] at h
  have hz := List.of_mem_zip h
  exact ⟨hz.1, List.mem_of_mem_tail hz.2⟩

theorem saturatePair_effects (b : ℚ) (r : RGraph) (ps : Node → List Node) (x y : Node)
    (hxy : x ≠ y) (hcoh : Coherent r) :
    ((saturatePair b (r, ps) (x, y)).1.weight y x = r.weight y x - b) ∧
    ((saturatePair b (r, ps) (x, y)).1.weight x y = r.weight x y + b) ∧
    (∀ u v, ¬(u = y ∧ v = x) → ¬(u = x ∧ v = y) →
      (saturatePair b (r, ps) (x, y)).1.weight u v = r.weight u v) ∧
    ((saturatePair b (r, ps) (x, y)).1.hasEdge x y = true) ∧
    (∀ u v, ¬(u = x ∧ v = y) →
      (saturatePair b (r, ps) (x, y)).1.hasEdge u v = r.hasEdge u v) := by
  have h1 : ¬(y = x ∧ x = y) := fun h => hxy h.2
  have h2 : ¬(x = y ∧ y = x) := fun h => hxy h.1
  by_cases hxyE : r.hasEdge x y
  · refine ⟨?_, ?_, fun u v huv1 huv2 => ?_, ?_, fun u v huv => ?_⟩
    · simp [saturatePair, RGraph.setWeight, RGraph.addEdge, qSub_eq, hxyE, h1, h2]
    · simp [saturatePair, RGraph.setWeight, RGraph.addEdge, qAdd_eq, hxyE, h1, h2]
    · simp [saturatePair, RGraph.setWeight, RGraph.addEdge, hxyE, huv1, huv2]
    · simp [saturatePair, RGraph.setWeight, RGraph.addEdge, hxyE]
    · simp [saturatePair, RGraph.setWeight, RGraph.addEdge, hxyE, huv]
  · have hz : r.weight x y = 0 := hcoh x y (by simpa using hxyE)
    refine ⟨?_, ?_, fun u v huv1 huv2 => ?_, ?_, fun u v huv => ?_⟩
    · simp [saturatePair, RGraph.setWeight, RGraph.addEdge, qSub_eq, hxyE, h1, h2]
    · simp [saturatePair, RGraph.setWeight, RGraph.addEdge, qAdd_eq, hxyE, h1, h2, hz]
    · simp [saturatePair, RGraph.setWeight, RGraph.addEdge, hxyE, huv1, huv2]
    · simp [saturatePair, RGraph.setWeight, RGraph.addEdge, hxyE]
    · simp [saturatePair, RGraph.setWeight, RGraph.addEdge, hxyE, huv]

theorem saturatePath_invariants (b : ℚ) (hb : 0 ≤ b) :
    ∀ (path : List Node) (r : RGraph) (ps : Node → List Node),
      path.Nodup → Coherent r → Nonneg r →
      (∀ cp ∈ pathPairs path, r.hasEdge cp.2 cp.1 = true) →
      (∀ cp ∈ pathPairs path, b ≤ r.weight cp.2 cp.1) →
      Coherent (saturatePath b r ps path).1 ∧
      Nonneg (saturatePath b r ps path).1 ∧
      (∀ u v, (saturatePath b r ps path).1.weight u v + (saturatePath b r ps path).1.weight v u
        = r.weight u v + r.weight v u) := by
  intro path
  induction path with
  | nil =>
    intro r ps _ hcoh hnn _ _
    exact ⟨hcoh, hnn, fun u v => rfl⟩
  | cons x tail ih =>
    cases tail with
    | nil =>
      intro r ps _ hcoh hnn _ _
      exact ⟨hcoh, hnn, fun u v => rfl⟩
    | cons y rest =>
      intro r ps hnd hcoh hnn hfwd hble
      have hxmem : x ∉ y :: rest := (List.nodup_cons.mp hnd).1
      have hxy : x ≠ y := fun h => hxmem (h ▸ List.mem_cons_self y rest)
      have hnd' : (y :: rest).Nodup := (List.nodup_cons.mp hnd).2
      have hpp : pathPairs (x :: y :: rest) = (x, y) :: pathPairs (y :: rest) := rfl
      have hE : r.hasEdge y x = true :=
        hfwd (x, y) (by rw [hpp]; exact List.mem_cons_self _ _)
      have hble1 : b ≤ r.weight y x :=
        hble (x, y) (by rw [hpp]; exact List.mem_cons_self _ _)
      obtain ⟨hw_yx, hw_xy, hw_other, hE_xy, hE_other⟩ :=
        saturatePair_effects b r ps x y hxy hcoh
      have hunf : saturatePath b r ps (x :: y :: rest)
          = saturatePath b (saturatePair b (r, ps) (x, y)).1
              (saturatePair b (r, ps) (x, y)).2 (y :: rest) := rfl
      have hmono : ∀ u v, r.hasEdge u v = true →
          (saturatePair b (r, ps) (x, y)).1.hasEdge u v = true := by
        intro u v h
        by_cases hc : u = x ∧ v = y
        · obtain ⟨rfl, rfl⟩ := hc
          exact hE_xy
        · rw [hE_other u v hc]; exact h
      have hcoh2 : Coherent (saturatePair b (r, ps) (x, y)).1 := by
        intro u v h
        by_cases hc : u = x ∧ v = y
        · obtain ⟨rfl, rfl⟩ := hc
          rw [hE_xy] at h
          cases h
        · rw [hE_other u v hc] at h
          by_cases hc2 : u = y ∧ v = x
          · obtain ⟨rfl, rfl⟩ := hc2
            rw [hE] at h
            cases h
          · rw [hw_other u v hc2 hc]
            exact hcoh u v h
      have hnn2 : Nonneg (saturatePair b (r, ps) (x, y)).1 := by
        intro u v
        by_cases hc2 : u = y ∧ v = x
        · obtain ⟨rfl, rfl⟩ := hc2
          rw [hw_yx]
          exact sub_nonneg.mpr hble1
        · by_cases hc : u = x ∧ v = y
          · obtain ⟨rfl, rfl⟩ := hc
            rw [hw_xy]
            exact add_nonneg (hnn _ _) hb
          · rw [hw_other u v hc2 hc]
            exact hnn u v
      have hnotx : ∀ cp ∈ pathPairs (y :: rest), cp.1 ≠ x ∧ cp.2 ≠ x := by
        intro cp hm
        have hmm := pathPairs_mem hm
        exact ⟨fun h => hxmem (h ▸ hmm.1), fun h => hxmem (h ▸ hmm.2)⟩
      have hfwd2 : ∀ cp ∈ pathPairs (y :: rest),
          (saturatePair b (r, ps) (x, y)).1.hasEdge cp.2 cp.1 = true := by
        intro cp hm
        exact hmono _ _ (hfwd cp (by rw [hpp]; exact List.mem_cons_of_mem _ hm))
      have hble2 : ∀ cp ∈ pathPairs (y :: rest),
          b ≤ (saturatePair b (r, ps) (x, y)).1.weight cp.2 cp.1 := by
        intro cp hm
        have hx := hnotx cp hm
        rw [hw_other cp.2 cp.1 (fun h => hx.1 h.2) (fun h => hx.2 h.1)]
        exact hble cp (by rw [hpp]; exact List.mem_cons_of_mem _ hm)
      obtain ⟨hcohF, hnnF, hconsF⟩ :=
        ih (saturatePair b (r, ps) (x, y)).1 (saturatePair b (r, ps) (x, y)).2
          hnd' hcoh2 hnn2 hfwd2 hble2
      rw [hunf]
      refine ⟨hcohF, hnnF, fun u v => ?_⟩
      rw [hconsF u v]
      by_cases hc1 : u = y ∧ v = x
      · obtain ⟨rfl, rfl⟩ := hc1
        rw [hw_yx, hw_xy]
        ring
      · by_cases hc2 : u = x ∧ v = y
        · obtain ⟨rfl, rfl⟩ := hc2
          rw [hw_yx, hw_xy]
          ring
        · rw [hw_other u v hc1 hc2,
            hw_other v u (fun h => hc2 ⟨h.2, h.1⟩) (fun h => hc1 ⟨h.2, h.1⟩)]

theorem findEdge_mem : ∀ (hes : List (Node × Node × ℚ)) (u v : Node) (w : ℚ),
    findEdge hes u v = some w → (u, v, w) ∈ hes := by
  intro hes
  induction hes with
  | nil => intro u v w h; cases h
  | cons e rest ih =>
    intro u v w h
    rw [findEdge] at h
    split at h
    · rename_i hc
      have he : e = (u, v, w) := by
        obtain ⟨a, bb, c⟩ := e
        obtain ⟨h1, h2⟩ := hc
        cases h
        simp_all
      rw [← he]
      exact List.mem_cons_self _ _
    · exact List.mem_cons_of_mem _ (ih u v w h)

theorem ofHalfEdges_coherent (n : Nat) (hes : List (Node × Node × ℚ)) :
    Coherent (RGraph.ofHalfEdges n hes) := by
  intro u v h
  rw [RGraph.ofHalfEdges] at h ⊢
  cases hfe : findEdge hes u v with
  | none => simp [hfe]
  | some w => simp [hfe] at h

theorem ofHalfEdges_nonneg (n : Nat) (hes : List (Node × Node × ℚ))
    (h : ∀ e ∈ hes, 0 ≤ e.2.2) : Nonneg (RGraph.ofHalfEdges n hes) := by
  intro u v
  rw [RGraph.ofHalfEdges]
  cases hfe : findEdge hes u v with
  | none => simp [hfe]
  | some w =>
    simp only [hfe, Option.getD_some]
    exact h _ (findEdge_mem hes u v w hfe)

theorem bfsVisitChild_frame (r : RGraph) (p : Node) (st : BFSState) (cc c : Node)
    (hne : c ≠ cc) :
    (bfsVisitChild r p st cc).level c = st.level c ∧
    (bfsVisitChild r p st cc).parents c = st.parents c ∧
    (bfsVisitChild r p st cc).queue.count c = st.queue.count c := by
  rw [bfsVisitChild]
  split
  · split
    · refine ⟨by simp [hne, Ne.symm hne], by simp [hne, Ne.symm hne], ?_⟩
      show (st.queue ++ [cc]).count c = st.queue.count c
      rw [List.count_append, List.count_singleton']
      simp [hne, Ne.symm hne]
    · split
      · exact ⟨rfl, by simp [hne], rfl⟩
      · exact ⟨rfl, rfl, rfl⟩
  · exact ⟨rfl, rfl, rfl⟩

theorem bfsVisitChild_level_p (r : RGraph) (p : Node) (st : BFSState) (cc : Node)
    (hp : 0 ≤ st.level p) : (bfsVisitChild r p st cc).level p = st.level p := by
  by_cases hpc : p = cc
  · subst hpc
    rw [bfsVisitChild]
    split
    · split
      · rename_i hl
        omega
      · split
        · rfl
        · rfl
    · rfl
  · exact (bfsVisitChild_frame r p st cc p hpc).1

theorem bfsVisitChild_level_ge (r : RGraph) (p : Node) (st : BFSState) (cc : Node)
    (h : ∀ u, -1 ≤ st.level u) : ∀ u, -1 ≤ (bfsVisitChild r p st cc).level u := by
  intro u
  rw [bfsVisitChild]
  split
  · split
    · show -1 ≤ if u = cc then st.level p + 1 else st.level u
      split
      · have := h p
        omega
      · exact h u
    · split
      · exact h u
      · exact h u
  · exact h u

theorem bfsVisitChild_self (r : RGraph) (p : Node) (st : BFSState) (c : Node)
    (hp : 0 ≤ st.level p) (hw : 0 < r.weight p c) :
    (st.level c = -1 →
      (bfsVisitChild r p st c).level c = st.level p + 1 ∧
      (bfsVisitChild r p st c).parents c = st.parents c ++ [p] ∧
      (bfsVisitChild r p st c).queue.count c = st.queue.count c + 1) ∧
    (st.level c = st.level p + 1 →
      (bfsVisitChild r p st c).level c = st.level c ∧
      (bfsVisitChild r p st c).parents c = st.parents c ++ [p] ∧
      (bfsVisitChild r p st c).queue.count c = st.queue.count c) := by
  constructor
  · intro hl
    rw [bfsVisitChild, if_pos hw, if_pos hl]
    refine ⟨by simp, by simp, ?_⟩
    show (st.queue ++ [c]).count c = st.queue.count c + 1
    simp [List.count_append]
  · intro hl
    have hl1 : st.level c ≠ -1 := by omega
    rw [bfsVisitChild, if_pos hw, if_neg hl1, if_pos hl]
    exact ⟨rfl, by simp, rfl⟩

theorem bfsFold_frame (r : RGraph) (p : Node) :
    ∀ (L : List Node) (st : BFSState) (c : Node), c ∉ L →
      (L.foldl (bfsVisitChild r p) st).level c = st.level c ∧
      (L.foldl (bfsVisitChild r p) st).parents c = st.parents c ∧
      (L.foldl (bfsVisitChild r p) st).queue.count c = st.queue.count c := by
  intro L
  induction L with
  | nil => intro st c _; exact ⟨rfl, rfl, rfl⟩
  | cons cc rest ih =>
    intro st c hc
    have hne : c ≠ cc := fun h => hc (h ▸ List.mem_cons_self cc rest)
    have hrest : c ∉ rest := fun h => hc (List.mem_cons_of_mem _ h)
    rw [List.foldl_cons]
    obtain ⟨h1, h2, h3⟩ := ih (bfsVisitChild r p st cc) c hrest
    obtain ⟨g1, g2, g3⟩ := bfsVisitChild_frame r p st cc c hne
    exact ⟨h1.trans g1, h2.trans g2, h3.trans g3⟩

theorem bfsFold_level_p (r : RGraph) (p : Node) :
    ∀ (L : List Node) (st : BFSState), 0 ≤ st.level p →
      (L.foldl (bfsVisitChild r p) st).level p = st.level p := by
  intro L
  induction L with
  | nil => intro st _; rfl
  | cons cc rest ih =>
    intro st hp
    rw [List.foldl_cons]
    have hstep := bfsVisitChild_level_p r p st cc hp
    rw [ih (bfsVisitChild r p st cc) (by rw [hstep]; exact hp), hstep]

theorem bfsFold_char (r : RGraph) (p : Node) :
    ∀ (L : List Node) (st : BFSState), L.Nodup → 0 ≤ st.level p →
      ∀ c ∈ L, 0 < r.weight p c →
        (st.level c = -1 →
          (L.foldl (bfsVisitChild r p) st).level c = st.level p + 1 ∧
          (L.foldl (bfsVisitChild r p) st).parents c = st.parents c ++ [p] ∧
          (L.foldl (bfsVisitChild r p) st).queue.count c = st.queue.count c + 1) ∧
        (st.level c = st.level p + 1 →
          (L.foldl (bfsVisitChild r p) st).level c = st.level c ∧
          (L.foldl (bfsVisitChild r p) st).parents c = st.parents c ++ [p] ∧
          (L.foldl (bfsVisitChild r p) st).queue.count c = st.queue.count c) := by
  intro L
  induction L with
  | nil => intro st _ _ c hc; cases hc
  | cons cc rest ih =>
    intro st hnd hp c hc hw
    rw [List.foldl_cons]
    rcases List.mem_cons.mp hc with rfl | hmem
    · have hrest : c ∉ rest := (List.nodup_cons.mp hnd).1
      obtain ⟨f1, f2, f3⟩ := bfsFold_frame r p rest (bfsVisitChild r p st c) c hrest
      obtain ⟨s1, s2⟩ := bfsVisitChild_self r p st c hp hw
      constructor
      · intro hl
        obtain ⟨a1, a2, a3⟩ := s1 hl
        exact ⟨f1.trans a1, f2.trans a2, f3.trans a3⟩
      · intro hl
        obtain ⟨a1, a2, a3⟩ := s2 hl
        exact ⟨f1.trans a1, f2.trans a2, f3.trans a3⟩
    · have hne : c ≠ cc := by
        intro h
        subst h
        exact (List.nodup_cons.mp hnd).1 hmem
      obtain ⟨g1, g2, g3⟩ := bfsVisitChild_frame r p st cc c hne
      have hp1 := bfsVisitChild_level_p r p st cc hp
      have := ih (bfsVisitChild r p st cc) (List.nodup_cons.mp hnd).2
        (by rw [hp1]; exact hp) c hmem hw
      rw [hp1, g1, g2, g3] at this
      exact this

theorem bfsFold_level_ge (r : RGraph) (p : Node) :
    ∀ (L : List Node) (st : BFSState), (∀ u, -1 ≤ st.level u) →
      ∀ u, -1 ≤ (L.foldl (bfsVisitChild r p) st).level u := by
  intro L
  induction L with
  | nil => intro st h u; exact h u
  | cons cc rest ih =>
    intro st h u
    rw [List.foldl_cons]
    exact ih (bfsVisitChild r p st cc) (bfsVisitChild_level_ge r p st cc h) u

theorem bfsProcess_level_ge (r : RGraph) (p : Node) (st : BFSState)
    (h : ∀ u, -1 ≤ st.level u) : ∀ u, -1 ≤ (bfsProcess r p st).level u :=
  bfsFold_level_ge r p (r.neighborRange p) st h

theorem bfsLoop_level_ge (r : RGraph) :
    ∀ (fuel : Nat) (st st' : BFSState), (∀ u, -1 ≤ st.level u) →
      bfsLoop r fuel st = some st' → ∀ u, -1 ≤ st'.level u := by
  intro fuel
  induction fuel with
  | zero => intro st st' _ h; cases h
  | succ n ih =>
    intro st st' hlev h
    rw [bfsLoop] at h
    cases hq : st.queue with
    | nil =>
      rw [hq] at h
      cases h
      exact hlev
    | cons p rest =>
      rw [hq] at h
      exact ih _ st' (bfsProcess_level_ge r p { st with queue := rest } (fun u => hlev u)) h

theorem findEdge_isSome_of_mem {hes : List (Node × Node × ℚ)} {a b : Node} {w : ℚ}
    (h : (a, b, w) ∈ hes) : (findEdge hes a b).isSome := by
  induction hes with
  | nil => cases h
  | cons e rest ih =>
    rw [findEdge]
    split
    · rfl
    · rcases List.mem_cons.mp h with rfl | hm
      · simp at *
      · exact ih hm

/-- C7: residual-graph construction inserts, for every node `u` and every
original in-neighbor `v` of `u` with weight `w`, a forward half-edge `v → u`
with capacity `w` and a reverse half-edge `u → v` with capacity 0, both
present as edges of the built residual graph, whose node set equals the
input's. -/
theorem C7_residual_construction (g : Graph) (u v : Node) (w : ℚ)
    (hu : u < g.numberOfNodes) (he : (v, u, w) ∈ g.edges) :
    (v, u, w) ∈ halfEdges g ∧ (u, v, (0 : ℚ)) ∈ halfEdges g ∧
    (initializeResidualGraph g).hasEdge v u = true ∧
    (initializeResidualGraph g).hasEdge u v = true ∧
    (initializeResidualGraph g).numberOfNodes = g.numberOfNodes := by
  have hin : (v, w) ∈ g.inNeighborsOf u := by
    rw [Graph.inNeighborsOf, List.mem_filterMap]
    exact ⟨(v, u, w), he, by simp⟩
  have h1 : (v, u, w) ∈ halfEdges g := by
    rw [halfEdges, List.mem_flatMap]
    exact ⟨u, List.mem_range.mpr hu, by rw [List.mem_flatMap]; exact ⟨(v, w), hin, by simp⟩⟩
  have h2 : (u, v, (0 : ℚ)) ∈ halfEdges g := by
    rw [halfEdges, List.mem_flatMap]
    exact ⟨u, List.mem_range.mpr hu, by rw [List.mem_flatMap]; exact ⟨(v, w), hin, by simp⟩⟩
  refine ⟨h1, h2, ?_, ?_, rfl⟩
  · exact findEdge_isSome_of_mem h1
  · exact findEdge_isSome_of_mem h2

/-- Witness for C7 at the diamond graph's first edge. -/
theorem C7_witness :
    0 + 1 < diamondG.numberOfNodes ∧ ((0 : Node), (1 : Node), (3 : ℚ)) ∈ diamondG.edges ∧
    ((0 : Node), (1 : Node), (3 : ℚ)) ∈ halfEdges diamondG ∧
    ((1 : Node), (0 : Node), (0 : ℚ)) ∈ halfEdges diamondG :=
  ⟨by decide, by decide,
    (C7_residual_construction diamondG 1 0 3 (by decide) (by decide)).1,
    (C7_residual_construction diamondG 1 0 3 (by decide) (by decide)).2.1⟩

/-- C8: construction with an undirected graph, an unweighted graph, or equal
source and target returns the corresponding configuration error (checked in
that order, before any algorithmic work), and even a successful construction
builds no residual graph and carries no run state. -/
theorem C8_construction_errors (g : Graph) (s t : Node) :
    (g.isDirected = false →
      Dinic.create g s t = .error "Dinic algorithm requires directed graph!") ∧
    (g.isDirected = true → g.isWeighted = false →
      Dinic.create g s t = .error "Dinic algorithm requires weighted graph!") ∧
    (g.isDirected = true → g.isWeighted = true → s = t →
      Dinic.create g s t =
        .error "Dinic algorithm requires `source` and `target` node to be different!") ∧
    (∀ d, Dinic.create g s t = .ok d →
      d.residualGraph = RGraph.empty ∧ d.maxFlow = 0 ∧ d.hasRun = false) := by
  refine ⟨fun h1 => ?_, fun h1 h2 => ?_, fun h1 h2 h3 => ?_, fun d hd => ?_⟩
  · simp [Dinic.create, h1]
  · simp [Dinic.create, h1, h2]
  · simp [Dinic.create, h1, h2, h3]
  · rw [Dinic.create] at hd
    split at hd
    · cases hd
    · split at hd
      · cases hd
      · split at hd
        · cases hd
        · cases hd; exact ⟨rfl, rfl, rfl⟩

/-- Witness for C8 at concrete rejected and accepted inputs. -/
theorem C8_witness :
    undirectedG.isDirected = false ∧
    Dinic.create undirectedG 0 1 = .error "Dinic algorithm requires directed graph!" ∧
    Dinic.create unweightedG 0 1 = .error "Dinic algorithm requires weighted graph!" ∧
    Dinic.create diamondG 2 2 =
      .error "Dinic algorithm requires `source` and `target` node to be different!" ∧
    dDiamond.residualGraph = RGraph.empty :=
  ⟨rfl, (C8_construction_errors undirectedG 0 1).1 rfl,
    (C8_construction_errors unweightedG 0 1).2.1 rfl rfl,
    (C8_construction_errors diamondG 2 2).2.2.1 rfl rfl rfl,
    ((C8_construction_errors diamondG 0 3).2.2.2 dDiamond rfl).1⟩

/-- C9: `getMaxFlow` raises the "not run" error whenever the run flag is
unset (as it is on a fresh construction), and after a completed `run` the
flag is set and `getMaxFlow` returns the accumulated flow. -/
theorem C9_not_run_error (d : Dinic) (eps : ℚ) (fuel : Nat) :
    (d.hasRun = false → d.getMaxFlow = .error "Error, run must be called first.") ∧
    (∀ g s t, Dinic.create g s t = .ok d → d.hasRun = false) ∧
    (d.run eps fuel).map (fun d1 => (d1.hasRun, d1.getMaxFlow))
      = (d.run eps fuel).map fun d1 => (true, .ok d1.maxFlow) := by
  refine ⟨fun h => ?_, fun g s t hc => ?_, ?_⟩
  · simp [Dinic.getMaxFlow, h]
  · rw [Dinic.create] at hc
    split at hc
    · cases hc
    · split at hc
      · cases hc
      · split at hc
        · cases hc
        · cases hc; rfl
  · rw [Dinic.run]
    cases runCore d.graph d.source d.target eps fuel with
    | none => rfl
    | some res => simp [Dinic.getMaxFlow]

/-- Witness for C9 at the freshly constructed diamond instance. -/
theorem C9_witness :
    dDiamond.hasRun = false ∧
    dDiamond.getMaxFlow = .error "Error, run must be called first." ∧
    Dinic.create diamondG 0 3 = .ok dDiamond :=
  ⟨rfl, (C9_not_run_error dDiamond acceptableError 50).1 rfl, rfl⟩

/-- C10: a second `run` on the same instance is safe and yields the same
`maxFlow` and `getMaxFlow` observations as the first, because `run` reads
only the original graph, source and target, rebuilds the residual graph, and
resets the accumulator. -/
theorem C10_rerun_stable (d : Dinic) (eps : ℚ) (fuel : Nat) :
    ((d.run eps fuel).bind fun d1 => (d1.run eps fuel).map fun d2 =>
        (d2.maxFlow, d2.getMaxFlow))
      = (d.run eps fuel).map fun d1 => (d1.maxFlow, d1.getMaxFlow) := by
  rw [Dinic.run]
  cases hrc : runCore d.graph d.source d.target eps fuel with
  | none => rfl
  | some res => simp [Dinic.run, hrc, Dinic.getMaxFlow]

/-- C6: the BFS starts with `level[source] = 0`, every other node unreached
and the predecessor lists cleared; when a frontier node `p` has a positive
residual edge to a neighbor `c`, an unreached `c` gets level
`level[p] + 1`, `p` as its sole predecessor so far, and one more queue entry,
while a `c` already at exactly `level[p] + 1` gets `p` appended as an
additional predecessor without being re-enqueued; the function returns true
iff the target's level is not the unreached marker. -/
theorem C6_bfs_characterization (r : RGraph) (source target : Node) (fuel : Nat) :
    ((bfsInit source).level source = 0 ∧
      (∀ u, u ≠ source → (bfsInit source).level u = -1) ∧
      (∀ u, (bfsInit source).parents u = []) ∧ (bfsInit source).queue = [source]) ∧
    (∀ (st : BFSState) (p c : Node), 0 ≤ st.level p → c ∈ r.neighborRange p →
      0 < r.weight p c →
      (st.level c = -1 → st.parents c = [] →
        (bfsProcess r p st).level c = st.level p + 1 ∧
        (bfsProcess r p st).parents c = [p] ∧
        (bfsProcess r p st).queue.count c = st.queue.count c + 1) ∧
      (st.level c = st.level p + 1 →
        (bfsProcess r p st).parents c = st.parents c ++ [p] ∧
        (bfsProcess r p st).queue.count c = st.queue.count c)) ∧
    (∀ (b : Bool) (st' : BFSState),
      canReachTargetInLevelGraph r source target fuel = some (b, st') →
      (b = true ↔ st'.level target ≠ -1)) := by
  refine ⟨⟨by simp [bfsInit], fun u hu => by simp [bfsInit, hu], fun u => rfl, rfl⟩, ?_, ?_⟩
  · intro st p c hp hmem hw
    have hnd : (r.neighborRange p).Nodup := (List.nodup_range _).filter _
    have hchar := bfsFold_char r p (r.neighborRange p) st hnd hp c hmem hw
    constructor
    · intro hl hpar
      obtain ⟨a1, a2, a3⟩ := hchar.1 hl
      refine ⟨a1, ?_, a3⟩
      show (bfsProcess r p st).parents c = [p]
      rw [show (bfsProcess r p st).parents c
          = ((r.neighborRange p).foldl (bfsVisitChild r p) st).parents c from rfl, a2, hpar]
      rfl
    · intro hl
      obtain ⟨_, a2, a3⟩ := hchar.2 hl
      exact ⟨a2, a3⟩
  · intro b st' h
    rw [canReachTargetInLevelGraph] at h
    cases hlp : bfsLoop r fuel (bfsInit source) with
    | none => rw [hlp] at h; cases h
    | some st2 =>
      rw [hlp, Option.map_some'] at h
      have he := Option.some_inj.mp h
      have hb : b = decide (st2.level target > -1) := (congrArg Prod.fst he).symm
      have hst : st' = st2 := (congrArg Prod.snd he).symm
      have hge : ∀ u, -1 ≤ st2.level u := by
        refine bfsLoop_level_ge r fuel (bfsInit source) st2 (fun u => ?_) hlp
        show -1 ≤ (if u = source then 0 else -1 : Int)
        split <;> omega
      subst hst
      rw [hb, decide_eq_true_iff]
      have := hge target
      omega

/-- Witness for C6 at the diamond instance: the frontier node 0 discovers the
unreached neighbor 1 (positive residual capacity 3), and the finished BFS's
returned flag matches the reachability of the target. -/
theorem C6_witness :
    (0 : Int) ≤ (bfsInit 0).level 0 ∧ (1 : Node) ∈ rDia.neighborRange 0 ∧
    0 < rDia.weight 0 1 ∧ (bfsInit 0).level 1 = -1 ∧ (bfsInit 0).parents 1 = [] ∧
    (bfsProcess rDia 0 (bfsInit 0)).level 1 = (bfsInit 0).level 0 + 1 ∧
    (bfsProcess rDia 0 (bfsInit 0)).parents 1 = [0] ∧
    (bfsProcess rDia 0 (bfsInit 0)).queue.count 1 = (bfsInit 0).queue.count 1 + 1 ∧
    (((canReachTargetInLevelGraph rDia 0 3 50).get (by decide)).1 = true ↔
      ((canReachTargetInLevelGraph rDia 0 3 50).get (by decide)).2.level 3 ≠ -1) := by
  have hpart2 := ((C6_bfs_characterization rDia 0 3 50).2.1 (bfsInit 0) 0 1 (by decide)
    (by decide) (by decide)).1 (by decide) (by decide)
  refine ⟨by decide, by decide, by decide, by decide, by decide,
    hpart2.1, hpart2.2.1, hpart2.2.2, ?_⟩
  exact (C6_bfs_characterization rDia 0 3 50).2.2 _ _ (Option.some_get (by decide)).symm

/-- C1 counterexample: the claim fails on a valid input whose single capacity
is half the tolerance used by the phase-termination check.  `run` completes
and `getMaxFlow` returns 0, yet the maximum s-t flow value of that graph is
1/2000000000 ≠ 0 (the first phase's flow is within tolerance of zero, so the
loop discards it and stops). -/
theorem C1_counterexample :
    dinicSolve tinyG 0 1 acceptableError 50 = some (.ok 0) ∧
    IsMaxFlowValue tinyG 0 1 (mkRat 1 2000000000) ∧
    (mkRat 1 2000000000 : ℚ) ≠ 0 := by
  refine ⟨by decide, ⟨⟨fun u v => if u = 0 ∧ v = 1 then mkRat 1 2000000000 else 0,
    ⟨?_, ?_⟩, ?_⟩, ?_⟩, by decide⟩
  · intro e he
    simp only [tinyG, List.mem_singleton] at he
    subst he
    exact ⟨by decide, by decide⟩
  · intro v hv h0 h1
    simp only [tinyG] at hv
    omega
  · norm_num [flowValue, outflowAt, inflowAt, tinyG]
  · rintro f ⟨hb, _⟩
    have h01 := (hb (0, 1, mkRat 1 2000000000) (by simp [tinyG])).2
    rw [Rat.mkRat_eq_div] at h01 ⊢
    simp only [flowValue, outflowAt, inflowAt, tinyG] at h01 ⊢
    norm_num
    linarith

/-- C1 amended: on the diamond graph (Scenario A) the pipeline
construct-run-query returns 5, and 5 is the maximum s-t flow value of that
graph in the independent reference sense. -/
theorem C1_diamond_maxflow :
    dinicSolve diamondG 0 3 acceptableError 50 = some (.ok 5) ∧
    IsMaxFlowValue diamondG 0 3 5 := by
  refine ⟨by decide,
    ⟨⟨fun u v =>
        if u = 0 ∧ v = 1 then 3 else if u = 0 ∧ v = 2 then 2
        else if u = 1 ∧ v = 2 then 1 else if u = 1 ∧ v = 3 then 2
        else if u = 2 ∧ v = 3 then 3 else 0, ⟨?_, ?_⟩, ?_⟩, ?_⟩⟩
  · intro e he
    simp only [diamondG, List.mem_cons, List.not_mem_nil, or_false] at he
    rcases he with rfl | rfl | rfl | rfl | rfl <;> exact ⟨by decide, by decide⟩
  · intro v hv h0 h3
    have : v = 1 ∨ v = 2 := by simp only [diamondG] at hv; omega
    rcases this with rfl | rfl <;> norm_num [inflowAt, outflowAt, diamondG]
  · norm_num [flowValue, outflowAt, inflowAt, diamondG]
  · rintro f ⟨hb, _⟩
    have h01 := (hb (0, 1, 3) (by simp [diamondG])).2
    have h02 := (hb (0, 2, 2) (by simp [diamondG])).2
    simp only [flowValue, outflowAt, inflowAt, diamondG] at h01 h02 ⊢
    norm_num
    linarith

/-- C2 counterexample: on the diamond graph, the first blocking-path call
returns (with flow 2) although the level graph still admits a further
target-to-source walk (target 3 still has predecessor 2 with residual
capacity 3 on edge 2→3, and node 2 has predecessor 0 with residual capacity 2
on edge 0→2): the function does not keep extracting paths until the level
graph is exhausted. -/
theorem C2_counterexample :
    phase1Flow diamondG 0 3 50 = some 2 ∧
    phase1AdmitsWalk diamondG 0 3 50 = some true ∧
    phase1Parents diamondG 0 3 50 3 = some [2] ∧
    phase1Weight diamondG 0 3 50 2 3 = some 3 ∧
    phase1Parents diamondG 0 3 50 2 = some [0] ∧
    phase1Weight diamondG 0 3 50 0 2 = some 2 := by
  refine ⟨by decide, by decide, by decide, by decide, by decide, by decide⟩

/-- C2 amended: each invocation of the blocking-path computation saturates at
most one augmenting path.  It walks the front chain of the predecessor lists
from the target down to the source; on reaching the source it saturates that
single path and resets the path buffer to the target, but the walk then
resumes at the source, whose predecessor list is empty, so the next iteration
retreats, empties the path buffer and returns.  The returned flow is the
bottleneck of the front chain, and the resulting residual graph and
predecessor lists are those produced by saturating exactly that chain. -/
theorem C2_single_path (r : RGraph) (ps : Node → List Node) (source target : Node)
    (chain : List Node) (fuel : Nat) (flow : ℚ)
    (hst : source ≠ target) (hsrc : ps source = [])
    (hchain : IsFrontChain ps source target chain)
    (hrun : cbpFlow r ps source target fuel = some flow) :
    flow = bottleNeck r chain ∧
    (∀ u v, cbpWeight r ps source target fuel u v
        = some ((saturatePath (bottleNeck r chain) r ps chain).1.weight u v)) ∧
    (∀ c, cbpParents r ps source target fuel c
        = some ((saturatePath (bottleNeck r chain) r ps chain).2 c)) := by
  rw [cbpFlow] at hrun
  cases hres : computeBlockingPath r ps source target fuel with
  | none => rw [hres] at hrun; cases hrun
  | some res =>
    rw [hres, Option.map_some'] at hrun
    have hchar := cbp_single_path r ps source target chain fuel res hst hsrc hchain hres
    refine ⟨?_, fun u v => ?_, fun c => ?_⟩
    · rw [← Option.some_inj, ← hrun, hchar]
    · rw [cbpWeight, hres, Option.map_some', hchar]
    · rw [cbpParents, hres, Option.map_some', hchar]

/-- Witness for C2 at phase 1 of the diamond instance: the front chain is
[3, 1, 0], the returned flow is its bottleneck 2, and the residual weight of
edge 1→3 afterwards matches saturating exactly that chain. -/
theorem C2_witness :
    (0 : Node) ≠ 3 ∧ pDia 0 = [] ∧ IsFrontChain pDia 0 3 [3, 1, 0] ∧
    cbpFlow rDia pDia 0 3 50 = some 2 ∧
    (2 : ℚ) = bottleNeck rDia [3, 1, 0] ∧
    cbpWeight rDia pDia 0 3 50 1 3
      = some ((saturatePath (bottleNeck rDia [3, 1, 0]) rDia pDia [3, 1, 0]).1.weight 1 3) :=
  ⟨by decide, by decide, ⟨by decide, by decide⟩, by decide,
    (C2_single_path rDia pDia 0 3 [3, 1, 0] 50 2 (by decide) (by decide)
      ⟨by decide, by decide⟩ (by decide)).1,
    (C2_single_path rDia pDia 0 3 [3, 1, 0] 50 2 (by decide) (by decide)
      ⟨by decide, by decide⟩ (by decide)).2.1 1 3⟩

/-- C5: throughout the blocking-flow extraction (which saturates exactly the
front chain of the predecessor lists), every residual capacity stays
nonnegative, and for each conceptual edge pair the sum of the forward and
reverse residual capacities after the call equals the sum before it. -/
theorem C5_capacity_invariants (r : RGraph) (ps : Node → List Node) (source target : Node)
    (chain : List Node) (fuel : Nat) (flow : ℚ)
    (hst : source ≠ target) (hsrc : ps source = [])
    (hchain : IsFrontChain ps source target chain) (hnd : chain.Nodup)
    (hcoh : Coherent r) (hnn : Nonneg r)
    (hfwd : ∀ cp ∈ pathPairs chain, r.hasEdge cp.2 cp.1 = true)
    (hrun : cbpFlow r ps source target fuel = some flow) :
    ∀ u v, ∃ w1 w2, cbpWeight r ps source target fuel u v = some w1 ∧
      cbpWeight r ps source target fuel v u = some w2 ∧
      0 ≤ w1 ∧ w1 + w2 = r.weight u v + r.weight v u := by
  rw [cbpFlow] at hrun
  cases hres : computeBlockingPath r ps source target fuel with
  | none => rw [hres] at hrun; cases hrun
  | some res =>
    have hchar := cbp_single_path r ps source target chain fuel res hst hsrc hchain hres
    have hb0 : 0 ≤ bottleNeck r chain := bottleNeck_nonneg r chain hnn
    have hble : ∀ cp ∈ pathPairs chain, bottleNeck r chain ≤ r.weight cp.2 cp.1 :=
      fun cp hm => bottleNeck_le r chain cp hm
    obtain ⟨hcohF, hnnF, hconsF⟩ :=
      saturatePath_invariants (bottleNeck r chain) hb0 chain r ps hnd hcoh hnn hfwd hble
    intro u v
    refine ⟨(saturatePath (bottleNeck r chain) r ps chain).1.weight u v,
      (saturatePath (bottleNeck r chain) r ps chain).1.weight v u, ?_, ?_, hnnF u v,
      hconsF u v⟩
    · rw [cbpWeight, hres, Option.map_some', hchar]
    · rw [cbpWeight, hres, Option.map_some', hchar]

/-- Witness for C5 at phase 1 of the diamond instance, instantiating the
conservation conclusion at the edge pair (1, 3). -/
theorem C5_witness :
    (0 : Node) ≠ 3 ∧ pDia 0 = [] ∧ IsFrontChain pDia 0 3 [3, 1, 0] ∧
    ([3, 1, 0] : List Node).Nodup ∧
    (∀ cp ∈ pathPairs [3, 1, 0], rDia.hasEdge cp.2 cp.1 = true) ∧
    cbpFlow rDia pDia 0 3 50 = some 2 ∧
    (∃ w1 w2, cbpWeight rDia pDia 0 3 50 1 3 = some w1 ∧
      cbpWeight rDia pDia 0 3 50 3 1 = some w2 ∧
      0 ≤ w1 ∧ w1 + w2 = rDia.weight 1 3 + rDia.weight 3 1) :=
  ⟨by decide, by decide, ⟨by decide, by decide⟩, by decide, by decide, by decide,
    C5_capacity_invariants rDia pDia 0 3 [3, 1, 0] 50 2 (by decide) (by decide)
      ⟨by decide, by decide⟩ (by decide) (ofHalfEdges_coherent _ _)
      (ofHalfEdges_nonneg _ _ (by decide)) (by decide) (by decide) 1 3⟩

/-- C3 counterexample: on the 5-node graph `phasesG` the phase loop of `run`
executes 6 phases, whose recorded source→target distances are
1, 2, 2, 2, 3, 3: the distance does not strictly increase between consecutive
phases, and the number of phases exceeds the node count 5. -/
theorem C3_counterexample :
    dinicTrace phasesG 0 4 acceptableError 100 = some [1, 2, 2, 2, 3, 3] ∧
    strictlyIncreasingB [1, 2, 2, 2, 3, 3] = false ∧
    ¬ (([1, 2, 2, 2, 3, 3] : List Int).length ≤ phasesG.numberOfNodes) := by
  refine ⟨by decide, by decide, by decide⟩

/-- C3 amended: on the diamond graph `run` executes 3 phases with
non-decreasing distances 2, 2, 3 (within the node-count bound there), but in
general the distance need not strictly increase and the phase count is not
bounded by the node count: on the 5-node graph `phasesG` the loop executes 6
phases with non-decreasing distances 1, 2, 2, 2, 3, 3. -/
theorem C3_phase_distances :
    dinicTrace diamondG 0 3 acceptableError 50 = some [2, 2, 3] ∧
    nondecreasingB [2, 2, 3] = true ∧ strictlyIncreasingB [2, 2, 3] = false ∧
    ([2, 2, 3] : List Int).length ≤ diamondG.numberOfNodes ∧
    dinicTrace phasesG 0 4 acceptableError 100 = some [1, 2, 2, 2, 3, 3] ∧
    nondecreasingB [1, 2, 2, 2, 3, 3] = true ∧
    phasesG.numberOfNodes < ([1, 2, 2, 2, 3, 3] : List Int).length := by
  refine ⟨by decide, by decide, by decide, by decide, by decide, by decide, by decide⟩

/-- C4 counterexample: on `withinTolG` the first blocking-path call saturates
the path with bottleneck 1 and leaves the forward residual capacity of edge
1→2 at 1/2000000000 — within the tolerance of zero (the tolerance comparison
calls it equal to 0) but not exactly zero — and the predecessor 1 of node 2
is not popped: the edge-saturation test is an exact comparison with zero, not
a tolerance-aware one. -/
theorem C4_counterexample :
    phase1Flow withinTolG 0 2 50 = some 1 ∧
    phase1Weight withinTolG 0 2 50 1 2 = some (mkRat 1 2000000000) ∧
    phase1Parents withinTolG 0 2 50 2 = some [1] ∧
    NumericTools.equal (mkRat 1 2000000000) 0 acceptableError = true ∧
    (mkRat 1 2000000000 : ℚ) ≠ 0 := by
  refine ⟨by decide, by decide, by decide, by decide, by decide⟩

/-- C4 amended: the phase-termination comparison (`NumericTools.equal`) is
tolerance-aware, but the edge-saturation test inside the blocking-flow
computation pops the front predecessor of the path child exactly when the
updated forward residual capacity equals zero exactly — a residual capacity
that is merely within tolerance of zero does not trigger the pop. -/
theorem C4_exact_saturation_test (b : ℚ) (r : RGraph) (parents : Node → List Node)
    (c p : Node) (hcp : c ≠ p) :
    ((saturatePair b (r, parents) (c, p)).2 c
      = if r.weight p c - b = 0 ∧ parents c ≠ [] then (parents c).tail else parents c) ∧
    (∀ x tol, NumericTools.equal x 0 tol = true ↔ |x| ≤ tol) := by
  constructor
  · have hpc2 : p ≠ c := fun h => hcp h.symm
    by_cases hE : r.hasEdge c p <;>
      by_cases hZ : r.weight p c - b = 0 <;>
        by_cases hP : parents c = [] <;>
          simp [saturatePair, RGraph.setWeight, RGraph.addEdge, qSub_eq, qAdd_eq,
            hE, hZ, hP, hcp, hpc2]
  · intro x tol
    rw [NumericTools.equal, decide_eq_true_iff, qAbs_eq, qSub_eq, sub_zero]

/-- Witness for the C4 amended theorem at the diamond's phase-1 saturation of
edge 1→3 (bottleneck 2): the updated capacity is exactly zero, so the front
predecessor of node 3 is popped. -/
theorem C4_witness :
    ((3 : Node) ≠ 1) ∧
    ((saturatePair 2 (rDia, pDia) (3, 1)).2 3
      = if rDia.weight 1 3 - 2 = 0 ∧ pDia 3 ≠ [] then (pDia 3).tail else pDia 3) :=
  ⟨by decide, (C4_exact_saturation_test 2 rDia pDia 3 1 (by decide)).1⟩

end NetworKit
